import Mathlib

/-!
Verification of the `papaya` IIIF manifest service.

The Python sources under `src/papaya` are shallowly embedded here:
Python `str` values become `Str := List Char`, fallible code returns
`Except PyErr`, and the external collaborators (the `jq` query engine,
the Solr index, the HTTP stack) are modelled by passing their results in
as explicit data.  Every definition is translated from the source
modules `source.py` and `iiif2.py`.
-/

deriving instance DecidableEq for Except

namespace Papaya

/-- Python strings, modelled as lists of characters. -/
abbrev Str := List Char

/-- Python exceptions raised by the embedded code. `identifierError` and
`urlError` are the dedicated `IdentifierError` / `URLError` classes from
`source.py`; the rest are the corresponding Python builtins. -/
inductive PyErr where
  | valueError
  | keyError
  | indexError
  | attributeError
  | typeError
  | stopIteration
  | identifierError
  | urlError
  deriving DecidableEq, Repr

/-! ## Python string primitives -/

/-- One pass of Python `str.replace` for a (nonempty) pattern `pat`:
scan left to right, replacing each non-overlapping occurrence of `pat`
by `rep`.  `fuel` bounds the recursion; every recursive call consumes at
least one character, so `fuel = s.length` is always enough. -/
def replaceGo (pat rep : Str) : ℕ → Str → Str
  | 0, s => s
  | f + 1, s =>
    match s with
    | [] => []
    | c :: cs =>
      if pat.isPrefixOf (c :: cs) then rep ++ replaceGo pat rep f ((c :: cs).drop pat.length)
      else c :: replaceGo pat rep f cs

/-- Python `s.replace(pat, rep)` (all occurrences).  For the empty
pattern Python inserts `rep` before every character and at the end. -/
def pyReplace (pat rep s : Str) : Str :=
  match pat with
  | [] => rep ++ (s.map (fun c => c :: rep)).flatten
  | _ :: _ => replaceGo pat rep s.length s

/-- Python `s.split(sep)` for a (nonempty) separator, with a fuel bound
as in `replaceGo`. -/
def splitGo (sep : Str) : ℕ → Str → List Str
  | 0, s => [s]
  | f + 1, s =>
    match s with
    | [] => [[]]
    | c :: cs =>
      if sep.isPrefixOf (c :: cs) then [] :: splitGo sep f ((c :: cs).drop sep.length)
      else
        match splitGo sep f cs with
        | [] => [[c]]
        | p :: ps => (c :: p) :: ps

/-- Python `s.split(sep)` for a nonempty separator string.  (Python
raises on an empty separator; the code only splits on the nonempty
generated match tag, so the `[]` branch is never exercised.) -/
def pySplit (sep s : Str) : List Str :=
  match sep with
  | [] => [s]
  | _ :: _ => splitGo sep s.length s

/-- Python `s.split(sep, 1)` for a single-character separator,
returning `none` when the separator does not occur (in which case
Python returns the one-element list `[s]`). -/
def splitFirstCh (sep : Char) : Str → Option (Str × Str)
  | [] => none
  | c :: cs =>
    if c = sep then some ([], cs)
    else (splitFirstCh sep cs).map (fun p => (c :: p.1, p.2))

/-- Python `s.split(sep)` for a single-character separator. -/
def splitCh (sep : Char) : Str → List Str
  | [] => [[]]
  | c :: cs =>
    if c = sep then [] :: splitCh sep cs
    else
      match splitCh sep cs with
      | [] => [[c]]
      | p :: ps => (c :: p) :: ps

/-- Python whitespace recognized by `int()` / `str.strip`. -/
def isPySpace (c : Char) : Bool :=
  c = ' ' || c = '\t' || c = '\n' || c = '\r' || c = '\x0b' || c = '\x0c'

/-- Strip leading and trailing whitespace. -/
def pyStrip (s : Str) : Str :=
  ((s.dropWhile isPySpace).reverse.dropWhile isPySpace).reverse

/-- Value of a hexadecimal digit. -/
def hexVal (c : Char) : Option ℕ :=
  if '0' ≤ c ∧ c ≤ '9' then some (c.toNat - 48)
  else if 'a' ≤ c ∧ c ≤ 'f' then some (c.toNat - 87)
  else if 'A' ≤ c ∧ c ≤ 'F' then some (c.toNat - 55)
  else none

/-- Python `urllib.parse.unquote_plus`: `+` becomes a space and `%hh` escapes
are decoded; invalid escapes are left as-is. -/
def unquotePlus : Str → Str
  | [] => []
  | '+' :: cs => ' ' :: unquotePlus cs
  | '%' :: a :: b :: cs =>
    match hexVal a, hexVal b with
    | some x, some y => Char.ofNat (16 * x + y) :: unquotePlus cs
    | _, _ => '%' :: unquotePlus (a :: b :: cs)
  | c :: cs => c :: unquotePlus cs

/-- Python `urllib.parse.parse_qsl` with default options: split the query
string on `&`, keep only fields with a `=` and a nonempty value, and
decode both halves. -/
def parse_qsl (s : Str) : List (Str × Str) :=
  (splitCh '&' s).filterMap fun field =>
    match splitFirstCh '=' field with
    | none => none
    | some (n, v) => if v = [] then none else some (unquotePlus n, unquotePlus v)

/-- Insert one key/value pair with Python `dict` semantics: an existing
key keeps its position but its value is overwritten; a new key is
appended. -/
def dictInsert (d : List (Str × Str)) (k v : Str) : List (Str × Str) :=
  if d.any (fun p => p.1 = k) then d.map (fun p => if p.1 = k then (k, v) else p)
  else d ++ [(k, v)]

/-- Python `dict(pairs)`. -/
def pyDict (ps : List (Str × Str)) : List (Str × Str) :=
  ps.foldl (fun d p => dictInsert d p.1 p.2) []

/-- Dictionary lookup (`d[k]`), `none` for a missing key. -/
def dictGet (d : List (Str × Str)) (k : Str) : Option Str :=
  (d.find? (fun p => p.1 = k)).map Prod.snd

/-- Decimal digit test (`'0' ≤ c ≤ '9'`). -/
def isDigitCh (c : Char) : Bool := '0' ≤ c && c ≤ '9'

/-- Numeric value of an all-digit, nonempty string; `none` otherwise. -/
def parseDigits (s : Str) : Option ℕ :=
  if s ≠ [] ∧ s.all isDigitCh then
    some (s.foldl (fun a c => 10 * a + (c.toNat - 48)) 0)
  else none

/-- Python `int(s)` on a string: surrounding whitespace, an optional
sign, then decimal digits; `none` models the `ValueError` raised
otherwise. -/
def pyInt (s : Str) : Option ℤ :=
  let t := pyStrip s
  if t.head? = some '-' then (parseDigits t.tail).map (fun n => -(n : ℤ))
  else if t.head? = some '+' then (parseDigits t.tail).map (fun n => (n : ℤ))
  else (parseDigits t).map (fun n => (n : ℤ))

/-- The decimal digit characters used by `str(n)`. -/
def digitCh (d : ℕ) : Char :=
  match d with
  | 0 => '0' | 1 => '1' | 2 => '2' | 3 => '3' | 4 => '4'
  | 5 => '5' | 6 => '6' | 7 => '7' | 8 => '8' | _ => '9'

/-- Big-endian digit expansion of a positive number, with a fuel bound
(`fuel = n` always suffices since the value shrinks by a factor of ten
each step). -/
def natToStrGo : ℕ → ℕ → Str
  | 0, _ => []
  | f + 1, n => if n = 0 then [] else natToStrGo f (n / 10) ++ [digitCh (n % 10)]

/-- Python `str(n)` for a natural number: plain decimal digits, no
zero-padding. -/
def natToStr (n : ℕ) : Str :=
  if n = 0 then ['0'] else natToStrGo n n

/-! ## `source.py`: language-tagged values -/

/-- Result of `format_value`: either the JSON-LD dictionary
`{'@language': lang, '@value': val}` or the unmodified string. -/
inductive FmtVal where
  | tagged (lang val : Str)
  | plain (s : Str)
  deriving DecidableEq, Repr

/-- The non-greedy group `(.*?)]` of the `format_value` regex, applied
after the literal `[@`: consume characters up to the first `]` and
return (group, remainder).  `.` does not match a newline, so the scan
aborts (`none`) if a newline or the end of the string is reached before
a `]`. -/
def scanLang : Str → Option (Str × Str)
  | [] => none
  | c :: cs =>
    if c = ']' then some ([], cs)
    else if c = '\n' then none
    else (scanLang cs).map (fun p => (c :: p.1, p.2))

/-- Python `format_value` from `source.py`: `re.match(r'\[@(.*?)](.*)', value)`
anchored at the start; on a match, group 1 is the language and group 2
(which, again, stops at a newline) is the value; otherwise the string
is returned unchanged. -/
def format_value (s : Str) : FmtVal :=
  match s with
  | a :: b :: rest =>
    if a = '[' ∧ b = '@' then
      match scanLang rest with
      | some (lang, after) => .tagged lang (after.takeWhile (fun c => ¬ c = '\n'))
      | none => .plain s
    else .plain s
  | _ => .plain s

/-! ## `source.py`: `RepositoryService` -/

/-- Python `RepositoryService(endpoint, prefix, path_sep)`.  The `prefix`
field is spelled `pfx`, `prefix` being reserved in Lean. -/
structure RepositoryService where
  endpoint : Str
  pfx : Str
  path_sep : Str

/-- Python `RepositoryService.get_resource_uri`: reject IIIF IDs without the
configured prefix (`IdentifierError`), strip the prefix, turn path
separators back into `/`, and prepend the endpoint. -/
def get_resource_uri (svc : RepositoryService) (iiif_id : Str) : Except PyErr Str :=
  if svc.pfx.isPrefixOf iiif_id then
    let local_part := iiif_id.drop svc.pfx.length
    let repo_path := '/' :: pyReplace svc.path_sep ['/'] local_part
    .ok (svc.endpoint ++ repo_path)
  else .error .identifierError

/-- Python `RepositoryService.get_iiif_id`: reject URIs outside the configured
endpoint (`URLError`), then
`resource_uri.replace(endpoint + '/', prefix).replace('/', path_sep)`. -/
def get_iiif_id (svc : RepositoryService) (resource_uri : Str) : Except PyErr Str :=
  if svc.endpoint.isPrefixOf resource_uri then
    .ok (pyReplace ['/'] svc.path_sep (pyReplace (svc.endpoint ++ ['/']) svc.pfx resource_uri))
  else .error .urlError

/-! ## `source.py`: `Resource`

The `jq` query engine is an external collaborator: a `Resource` is
modelled by the result sequences its compiled metadata queries produce
on its document.  `queryResults` maps each metadata-query key to its
(ordered) `jq` output; the two structural list queries `$page_uris` and
`$page_image_ids`, whose outputs the code consumes as lists of strings,
are carried as string lists. -/

/-- A `jq` output value, as far as the metadata path inspects it:
`null` or a string. -/
inductive JVal where
  | null
  | str (s : Str)
  deriving DecidableEq, Repr

/-- Model of `source.Resource`. -/
structure Resource where
  queryResults : List (Str × List JVal)
  page_uris : List Str
  image_ids : List Str

/-- Python `self._query(key)`: the output sequence of the compiled query for
`key` (the callers below only use keys of their own mapping, so lookup
cannot fail there). -/
def Resource.query (r : Resource) (k : Str) : List JVal :=
  ((r.queryResults.find? (fun p => p.1 = k)).map Prod.snd).getD []

/-- The string payload of a non-null result, dropped when `null`
(`if v is not None`). -/
def JVal.nonNull : JVal → Option Str
  | .null => none
  | .str s => some s

/-- Python `k.startswith('$')`. -/
def dollarKey (k : Str) : Bool := (['$'] : Str).isPrefixOf k

/-- The `value` list built for one descriptive key:
`[format_value(v) for v in self._query(k) if v is not None]`. -/
def formattedValues (vs : List JVal) : List FmtVal :=
  (vs.filterMap JVal.nonNull).map format_value

/-- Python `Resource.metadata`: each non-`$` key of the query mapping, in
order, becomes a `{'label': key, 'value': [...]}` entry; entries whose
value list is empty are dropped. -/
def Resource.metadata (r : Resource) : List (Str × List FmtVal) :=
  let keys := (r.queryResults.map Prod.fst).filter (fun k => !(dollarKey k))
  let md := keys.map (fun k => (k, formattedValues (r.query k)))
  md.filter (fun m => !(m.2.isEmpty))

/-- Python `list.index`: index of the first occurrence, `ValueError`
when absent. -/
def listIndex : List Str → Str → Except PyErr ℕ
  | [], _ => .error .valueError
  | y :: ys, x => if y = x then .ok 0 else (listIndex ys x).map (· + 1)

/-- Python `Resource.index(page_uri)`: `self.page_uris.index(page_uri)`. -/
def Resource.index (r : Resource) (page_uri : Str) : Except PyErr ℕ :=
  listIndex r.page_uris page_uri

/-- Python `Resource.get_page_image_id(page_uri)`: index the
`$page_image_ids` list by `self.index(page_uri)`; an out-of-range
(nonnegative) index raises `IndexError`. -/
def Resource.get_page_image_id (r : Resource) (page_uri : Str) : Except PyErr Str := do
  let i ← r.index page_uri
  match r.image_ids.get? i with
  | some x => .ok x
  | none => .error .indexError

/-! ## `source.py`: `TaggedText` and `SolrService.get_text_matches` -/

/-- Python `TaggedText`: a matched token and its parameter dictionary. -/
structure TaggedText where
  text : Str
  params : List (Str × Str)
  deriving DecidableEq, Repr

/-- Python `TaggedText.parse`: split on the first `|` (unpacking raises
`ValueError` when there is none); the tail is parsed as an HTTP query
string and turned into a dict. -/
def TaggedText.parse (dps_string : Str) : Except PyErr TaggedText :=
  match splitFirstCh '|' dps_string with
  | none => .error .valueError
  | some (t, tag) => .ok ⟨t, pyDict (parse_qsl tag)⟩

/-- The odd-indexed segments of a highlighted snippet split on the
match tag: `[x for i, x in enumerate(text.split(match_tag)) if i % 2 == 1]`. -/
def oddSegments (matchTag text : Str) : List Str :=
  (((pySplit matchTag text).enum.filter (fun p => p.1 % 2 = 1)).map Prod.snd)

/-- The hit-collection loop of `get_text_matches`: every odd-indexed
segment of every snippet, in order, parsed by `TaggedText.parse`. -/
def collectHits (matchTag : Str) (snippets : List Str) : Except PyErr (List TaggedText) :=
  ((snippets.map (oddSegments matchTag)).flatten).mapM TaggedText.parse

/-- Python `int(h.params['n'])`: `KeyError` when the parameter is missing,
`ValueError` when it is not a valid integer literal. -/
def nValue (h : TaggedText) : Except PyErr ℤ :=
  match dictGet h.params ['n'] with
  | none => .error .keyError
  | some v =>
    match pyInt v with
    | none => .error .valueError
    | some m => .ok m

/-- The filter `[h for h in hits if int(h.params['n']) == index]`. -/
def filterByN (n : ℤ) : List TaggedText → Except PyErr (List TaggedText)
  | [] => .ok []
  | h :: hs => do
    let m ← nValue h
    let rest ← filterByN n hs
    .ok (if m = n then h :: rest else rest)

/-- Python `SolrService.get_text_matches`, downstream of the Solr call: the
highlighting snippets returned for the resource's text-match field are
split on the request's unique match tag, the odd segments are parsed
into `TaggedText` hits, and an optional page index restricts the result
to hits whose `n` parameter equals it. -/
def get_text_matches (snippets : List Str) (matchTag : Str) (index : Option ℤ) :
    Except PyErr (List TaggedText) := do
  let hits ← collectHits matchTag snippets
  match index with
  | none => .ok hits
  | some n => filterByN n hits

/-! ## `iiif2.py`: `ImageInfo` and thumbnail arithmetic -/

/-- Python `ImageInfo`: the metadata fields parsed from the image service
response (`@id`, `@context`, `profile`, `width`, `height`). -/
structure ImageInfo where
  uri : Str
  context : Str
  profile : Str
  width : ℕ
  height : ℕ
  deriving DecidableEq, Repr

/-- Python `ImageInfo.aspect_ratio`: `Fraction(self.width, self.height)`, an
exact rational. -/
def ImageInfo.aspect_ratio (info : ImageInfo) : ℚ :=
  (info.width : ℚ) / (info.height : ℚ)

/-- Python `int()` applied to a `Fraction`: truncation toward zero. -/
def pyTrunc (q : ℚ) : ℤ :=
  if 0 ≤ q then ⌊q⌋ else -⌊-q⌋

/-- The height computed by `Image.thumbnail_dict`:
`int(width / self.info.aspect_ratio)` with `width` the configured
thumbnail width. -/
def thumbnail_height (thumb_width : ℕ) (info : ImageInfo) : ℤ :=
  pyTrunc ((thumb_width : ℚ) / info.aspect_ratio)

/-! ## `iiif2.py`: `ImageService.get_metadata` -/

/-- The exceptions `requests.get` can raise, by the classes relevant to
the `except requests.ConnectionError` handler: `ConnectTimeout`
subclasses `ConnectionError`, while `ReadTimeout` and the remaining
`RequestException`s do not. -/
inductive ReqExn where
  | connectionError
  | connectTimeout
  | readTimeout
  | otherRequestExn
  deriving DecidableEq, Repr

/-- Python `isinstance(e, requests.ConnectionError)`. -/
def isConnectionErrorClass : ReqExn → Bool
  | .connectionError => true
  | .connectTimeout => true
  | .readTimeout => false
  | .otherRequestExn => false

/-- Outcome of the `requests.get(url)` call: either an exception or a
response with its `ok` flag, status code, and (on the happy path) the
parsed JSON body. -/
inductive HttpResult where
  | raised (e : ReqExn)
  | responded (ok : Bool) (status : ℕ) (info : ImageInfo)
  deriving DecidableEq, Repr

/-- What `ImageService.get_metadata` leaves the caller with: the
dedicated `ImageServiceError`, or an exception the handler did not
catch. -/
inductive ImgErr where
  | imageServiceError
  | uncaught (e : ReqExn)
  deriving DecidableEq, Repr

/-- Python `ImageService.get_metadata`: only `requests.ConnectionError` is
translated to `ImageServiceError`; a response that is not `ok` also
becomes `ImageServiceError`; an `ok` response is parsed into
`ImageInfo`. -/
def ImageService.get_metadata : HttpResult → Except ImgErr ImageInfo
  | .raised e =>
    if isConnectionErrorClass e then .error .imageServiceError
    else .error (.uncaught e)
  | .responded ok _ info =>
    if ok then .ok info else .error .imageServiceError

/-! ## `iiif2.py`: `Image.info` memoization (`@cached_property`) -/

/-- The mutable face of one `Image` node: the `@cached_property` slot
for `info`, plus a count of calls made to
`ImageService.get_metadata`. -/
structure ImageNode where
  info_cache : Option ImageInfo
  fetch_count : ℕ
  deriving DecidableEq, Repr

/-- One access of `Image.info`: `@cached_property` returns the cached
value if the slot is filled, otherwise calls
`self.service.get_metadata(self.image_id)` (whose successful result is
`fetched`) and fills the slot. -/
def Image.access_info (fetched : ImageInfo) (s : ImageNode) : ImageInfo × ImageNode :=
  match s.info_cache with
  | some v => (v, s)
  | none => (fetched, ⟨some fetched, s.fetch_count + 1⟩)

/-- Iterate `k` further accesses of `Image.info`, keeping only the node
state. -/
def Image.access_iter (fetched : ImageInfo) : ℕ → ImageNode → ImageNode
  | 0, s => s
  | k + 1, s => Image.access_iter fetched k (Image.access_info fetched s).2

/-! ## `iiif2.py`: `Sequence.canvases` / `Canvas` -/

/-- The fields of a `Canvas` fixed at construction: `name=str(index)`,
the page URI, and `image_id = resource.get_page_image_id(page_uri)`. -/
structure CanvasM where
  name : Str
  page_uri : Str
  image_id : Str
  deriving DecidableEq, Repr

/-- The loop of `Sequence.canvases`:
`[Canvas(name=str(index), page_uri=page_uri) for index, page_uri in
enumerate(self.resource.page_uris)]`, each `Canvas.__init__` performing
the page-image-id lookup. -/
def mkCanvasesGo (r : Resource) (idx : ℕ) : List Str → Except PyErr (List CanvasM)
  | [] => .ok []
  | u :: us => do
    let img ← r.get_page_image_id u
    let rest ← mkCanvasesGo r (idx + 1) us
    .ok (⟨natToStr idx, u, img⟩ :: rest)

/-- Python `Sequence.canvases` for the single `normal` sequence. -/
def Sequence.canvases (r : Resource) : Except PyErr (List CanvasM) :=
  mkCanvasesGo r 0 r.page_uris

/-- The page index `Canvas.search_text` passes to
`get_text_matches`: `int(self.name)`. -/
def Canvas.search_page_index (c : CanvasM) : Except PyErr ℤ :=
  match pyInt c.name with
  | some n => .ok n
  | none => .error .valueError

/-! ## `iiif2.py`: `Manifest.to_dict`

Python attribute access on the `source.Resource` object is dynamic, so
it is modelled by an explicit attribute table: `resource_getattr`
implements exactly the attributes `source.Resource` defines (its
properties computed from the query results, its methods as opaque bound
methods) and raises `AttributeError` for anything else. -/

/-- A Python value as `to_dict` assembles it. -/
inductive PyVal where
  | vnone
  | vstr (s : Str)
  | vlist (xs : List PyVal)
  | vdict (xs : List (Str × PyVal))
  | vmethod (nm : Str)
  | vother

/-- Query lookup as `self._query(key)` performs it:
`self._jq_programs[key]` raises `KeyError` for an unknown key. -/
def Resource.queryE (r : Resource) (k : Str) : Except PyErr (List JVal) :=
  match r.queryResults.find? (fun p => p.1 = k) with
  | none => .error .keyError
  | some p => .ok p.2

/-- Python `.first()` on a query: the first output, `StopIteration` when the
query produced nothing. -/
def Resource.queryFirst (r : Resource) (k : Str) : Except PyErr JVal := do
  match (← r.queryE k) with
  | [] => .error .stopIteration
  | v :: _ => .ok v

/-- A `jq` output as a Python value. -/
def JVal.toPyVal : JVal → PyVal
  | .null => .vnone
  | .str s => .vstr s

/-- Python `' / '.join(values)`: every element must be a string
(`TypeError` otherwise). -/
def joinJVals (vs : List JVal) : Except PyErr Str := do
  let ss ← vs.mapM (fun v =>
    match v with
    | .str s => Except.ok s
    | .null => Except.error PyErr.typeError)
  .ok ((ss.intersperse (" / ".data)).flatten)

/-- Python `Resource.metadata` as the Python list of dicts it returns. -/
def metadataPyVal (r : Resource) : PyVal :=
  .vlist (r.metadata.map (fun m =>
    .vdict [("label".data, .vstr m.1),
            ("value".data, .vlist (m.2.map (fun fv =>
              match fv with
              | .plain s => .vstr s
              | .tagged l v => .vdict [("@language".data, .vstr l), ("@value".data, .vstr v)])))]))

/-- Attribute access on a `source.Resource` instance.  The table lists
the attributes the class actually defines — `doc`, `metadata_queries`,
`_jq_programs`, the properties `uri`, `label`, `page_uris`, `date`,
`license`, `description`, `metadata`, and the methods — and raises
`AttributeError` for any other name.  In particular there is no
`title` attribute (`iiif2.Manifest.to_dict` asks for one). -/
def resource_getattr (r : Resource) (nm : Str) : Except PyErr PyVal :=
  if nm = "uri".data then (r.queryFirst "$uri".data).map JVal.toPyVal
  else if nm = "label".data then (joinJVals =<< r.queryE "$label".data).map .vstr
  else if nm = "page_uris".data then .ok (.vlist (r.page_uris.map .vstr))
  else if nm = "date".data then (r.queryFirst "$date".data).map JVal.toPyVal
  else if nm = "license".data then (r.queryFirst "$license_uri".data).map JVal.toPyVal
  else if nm = "description".data then (joinJVals =<< r.queryE "$description".data).map .vstr
  else if nm = "metadata".data then .ok (metadataPyVal r)
  else if nm = "doc".data ∨ nm = "metadata_queries".data ∨ nm = "_jq_programs".data then .ok .vother
  else if nm = "index".data ∨ nm = "get_page_doc".data ∨ nm = "find_page_doc".data ∨
          nm = "get_page_image_id".data ∨ nm = "get_page_label".data ∨ nm = "_query".data then
    .ok (.vmethod nm)
  else .error .attributeError

/-- Python subscript `x[0]`. -/
def pySubscript0 : PyVal → Except PyErr PyVal
  | .vstr [] => .error .indexError
  | .vstr (c :: _) => .ok (.vstr [c])
  | .vlist [] => .error .indexError
  | .vlist (x :: _) => .ok x
  | _ => .error .typeError

/-- Python `Sequence.to_dict`: id, type, the canvas dicts, and `startCanvas`
(the first canvas's URI) only when there is at least one canvas. -/
def sequence_to_dict (uri : Str) (canvas_uris : List Str) (canvas_dicts : List PyVal) : PyVal :=
  let base := [("@id".data, PyVal.vstr uri), ("@type".data, PyVal.vstr "sc:Sequence".data),
               ("canvases".data, PyVal.vlist canvas_dicts)]
  match canvas_uris.head? with
  | none => .vdict base
  | some u => .vdict (base ++ [("startCanvas".data, PyVal.vstr u)])

/-- The `try: manifest_info['thumbnail'] = ... except IndexError: pass`
block: `self.sequences[0].canvases[0]` raises `IndexError` when there
are no canvases (caught, thumbnail omitted); an `IndexError` from the
thumbnail computation itself is caught the same way; any other error
propagates.  `canvas_thumbs` holds, per canvas, the outcome of
`image_annotation.thumbnail_dict()`. -/
def thumbnailStep : List (Except PyErr PyVal) → Except PyErr (Option PyVal)
  | [] => .ok none
  | t :: _ =>
    match t with
    | .error .indexError => .ok none
    | .error e => .error e
    | .ok v => .ok (some v)

/-- Python `Manifest.to_dict`.  The dict-literal entries are evaluated in
source order, so `self.resource.title[0]` is the first attribute access
on the resource; the serialized canvases, their URIs, and their
thumbnail outcomes enter as data (they involve the image service). -/
def manifest_to_dict (r : Resource) (manifest_uri seq_uri : Str)
    (canvas_uris : List Str) (canvas_dicts : List PyVal)
    (canvas_thumbs : List (Except PyErr PyVal))
    (logo_url : Option Str) (with_context : Bool) :
    Except PyErr (List (Str × PyVal)) := do
  let title ← resource_getattr r "title".data
  let label ← pySubscript0 title
  let mdv ← resource_getattr r "metadata".data
  let seqs : PyVal := .vlist [sequence_to_dict seq_uri canvas_uris canvas_dicts]
  let datev ← (resource_getattr r "date".data)
  let licv ← (resource_getattr r "license".data)
  let base := [("@id".data, PyVal.vstr manifest_uri), ("@type".data, PyVal.vstr "sc:Manifest".data),
               ("label".data, label), ("metadata".data, mdv), ("sequences".data, seqs),
               ("navDate".data, datev), ("license".data, licv)]
  let thumb ← thumbnailStep canvas_thumbs
  let d1 := match thumb with
    | none => base
    | some t => base ++ [("thumbnail".data, t)]
  let d2 := match logo_url with
    | none => d1
    | some l => d1 ++ [("logo".data, PyVal.vdict [("@id".data, PyVal.vstr l)])]
  let d3 := if with_context then
      d2 ++ [("@context".data, PyVal.vstr "http://iiif.io/api/presentation/2/context.json".data)]
    else d2
  .ok d3

/-! ## C6: thumbnail arithmetic -/

/-- C6: thumbnail height is computed by exact rational arithmetic: for
every image with positive width and height the aspect ratio is the
exact fraction width/height (1024×768 gives exactly 4/3), and the
thumbnail height is the floor of the thumbnail width divided by that
ratio (integer division of `thumb_width * height` by `width`); width
250 at ratio 4/3 gives 187. -/
theorem c6_thumbnail_exact_rational :
    ImageInfo.aspect_ratio ⟨[], [], [], 1024, 768⟩ = 4 / 3 ∧
    thumbnail_height 250 ⟨[], [], [], 1024, 768⟩ = 187 ∧
    (∀ (info : ImageInfo) (tw : ℕ), 0 < info.width → 0 < info.height →
      thumbnail_height tw info = ⌊(tw : ℚ) / info.aspect_ratio⌋ ∧
      thumbnail_height tw info = ((tw * info.height) / info.width : ℕ)) := by
  have main : ∀ (info : ImageInfo) (tw : ℕ), 0 < info.width → 0 < info.height →
      thumbnail_height tw info = ⌊(tw : ℚ) / info.aspect_ratio⌋ ∧
      thumbnail_height tw info = ((tw * info.height) / info.width : ℕ) := by
    intro info tw hw hh
    have hq : (0 : ℚ) ≤ (tw : ℚ) / info.aspect_ratio := by
      unfold ImageInfo.aspect_ratio
      positivity
    have h1 : thumbnail_height tw info = ⌊(tw : ℚ) / info.aspect_ratio⌋ := by
      unfold thumbnail_height pyTrunc
      rw [if_pos hq]
    refine ⟨h1, ?_⟩
    rw [h1]
    unfold ImageInfo.aspect_ratio
    rw [div_div_eq_mul_div]
    have hcast : (tw : ℚ) * (info.height : ℚ) = ((tw * info.height : ℕ) : ℚ) := by
      push_cast
      ring
    rw [hcast, Rat.floor_natCast_div_natCast]
    exact (Int.natCast_div _ _).symm
  refine ⟨?_, ?_, main⟩
  · unfold ImageInfo.aspect_ratio
    norm_num
  · have h := (main ⟨[], [], [], 1024, 768⟩ 250 (by norm_num) (by norm_num)).2
    rw [h]
    norm_num

/-- Witness for C6 at the spec's 1024×768 example. -/
theorem c6_witness :
    0 < (1024 : ℕ) ∧ 0 < (768 : ℕ) ∧
    thumbnail_height 250 ⟨[], [], [], 1024, 768⟩ =
      ⌊(250 : ℚ) / ImageInfo.aspect_ratio ⟨[], [], [], 1024, 768⟩⌋ :=
  ⟨by norm_num, by norm_num,
    (c6_thumbnail_exact_rational.2.2 ⟨[], [], [], 1024, 768⟩ 250 (by norm_num) (by norm_num)).1⟩

/-! ## C7: `Image.info` memoization -/

/-- After `access_info` has run once, the node state is a fixed point
of further accesses. -/
theorem access_iter_fixed (fetched : ImageInfo) :
    ∀ (k : ℕ) (s : ImageNode), (Image.access_info fetched s).2 = s →
      Image.access_iter fetched k s = s := by
  intro k
  induction k with
  | zero => intro s _; rfl
  | succ k ih =>
    intro s h
    show Image.access_iter fetched k (Image.access_info fetched s).2 = s
    rw [h]
    exact ih s h

/-- C7: image metadata is fetched at most once per `Image` node: after
the first access of `info`, every further access returns the same
cached `ImageInfo`, leaves the node state unchanged, and makes no
further call to the image metadata service (the fetch count is
stable under any number of subsequent accesses). -/
theorem c7_info_fetched_once (fetched : ImageInfo) (s : ImageNode) (k : ℕ) :
    (Image.access_info fetched (Image.access_info fetched s).2).1 =
      (Image.access_info fetched s).1 ∧
    (Image.access_info fetched (Image.access_info fetched s).2).2 =
      (Image.access_info fetched s).2 ∧
    (Image.access_iter fetched k (Image.access_info fetched s).2).fetch_count =
      (Image.access_info fetched s).2.fetch_count := by
  obtain ⟨cache, n⟩ := s
  have hfix : Image.access_info fetched (Image.access_info fetched ⟨cache, n⟩).2 =
      ((Image.access_info fetched ⟨cache, n⟩).1, (Image.access_info fetched ⟨cache, n⟩).2) := by
    cases cache <;> simp [Image.access_info]
  refine ⟨?_, ?_, ?_⟩
  · rw [hfix]
  · rw [hfix]
  · rw [access_iter_fixed fetched k _ (by rw [hfix])]

/-! ## C9: `ImageService.get_metadata` error handling -/

/-- C9 counterexample: a read timeout from `requests.get` is a
transport failure, but `except requests.ConnectionError` does not catch
`requests.ReadTimeout`, so the caller sees the raw network exception
rather than `ImageServiceError`. -/
theorem c9_counterexample :
    ImageService.get_metadata (.raised .readTimeout) = .error (.uncaught .readTimeout) ∧
    (Except.error (ImgErr.uncaught .readTimeout) : Except ImgErr ImageInfo) ≠
      .error .imageServiceError := by
  refine ⟨rfl, ?_⟩
  intro h
  simp at h

/-- C9 (amended): a connection-class failure (including a connect
timeout, which subclasses `ConnectionError`) and a non-success HTTP
status fail with `ImageServiceError`; a successful response yields the
parsed `ImageInfo`; but a request exception outside the
`ConnectionError` class (such as a read timeout) propagates to the
caller unchanged. -/
theorem c9_error_translation :
    (∀ e, isConnectionErrorClass e = true →
      ImageService.get_metadata (.raised e) = .error .imageServiceError) ∧
    (∀ e, isConnectionErrorClass e = false →
      ImageService.get_metadata (.raised e) = .error (.uncaught e)) ∧
    (∀ (st : ℕ) (info : ImageInfo),
      ImageService.get_metadata (.responded false st info) = .error .imageServiceError) ∧
    (∀ (st : ℕ) (info : ImageInfo),
      ImageService.get_metadata (.responded true st info) = .ok info) := by
  refine ⟨?_, ?_, ?_, ?_⟩ <;> intros <;> simp [ImageService.get_metadata, *]

/-- Witness for C9 at a plain connection error. -/
theorem c9_witness :
    isConnectionErrorClass .connectionError = true ∧
    ImageService.get_metadata (.raised .connectionError) = .error .imageServiceError :=
  ⟨rfl, c9_error_translation.1 .connectionError rfl⟩

/-! ## C2: `Manifest.to_dict` with zero pages -/

/-- A resource with all structural queries configured and zero pages. -/
def zeroPageResource : Resource :=
  ⟨[("$uri".data, [.str "u".data]), ("$label".data, [.str "L".data]),
    ("$date".data, [.str "d".data]), ("$license_uri".data, [.str "c".data]),
    ("$page_uris".data, []), ("$page_image_ids".data, [])], [], []⟩

/-- C2 (code bug): for a zero-page resource, `Manifest.to_dict` does
not succeed: its `'label'` entry evaluates `self.resource.title[0]`,
and `source.Resource` has no `title` attribute (its label property is
named `label`), so an `AttributeError` escapes before serialization
completes.  The thumbnail mechanism itself behaves as specified: with
zero canvases, `canvases[0]` raises `IndexError`, the handler swallows
it, and the `'thumbnail'` key would simply be omitted. -/
theorem c2_to_dict_zero_pages :
    manifest_to_dict zeroPageResource "m".data "s".data [] [] [] none false =
      .error .attributeError ∧
    resource_getattr zeroPageResource "title".data = .error .attributeError ∧
    thumbnailStep [] = .ok none := by
  exact ⟨rfl, rfl, rfl⟩

/-! ## C8: page index lookup -/

/-- Python `list.index` on an absent element raises `ValueError`. -/
theorem listIndex_not_mem (l : List Str) (x : Str) (h : x ∉ l) :
    listIndex l x = .error .valueError := by
  induction l with
  | nil => rfl
  | cons y ys ih =>
    have hy : ¬ y = x := fun hxy => h (hxy ▸ List.mem_cons_self y ys)
    simp only [listIndex, if_neg hy]
    rw [ih (fun hm => h (List.mem_cons_of_mem y hm))]
    rfl

/-- Python `list.index` returns the position of the first occurrence. -/
theorem listIndex_first (l : List Str) (x : Str) :
    ∀ i, l.get? i = some x → (∀ j, j < i → l.get? j ≠ some x) →
      listIndex l x = .ok i := by
  induction l with
  | nil => intro i h1 _; simp at h1
  | cons y ys ih =>
    intro i h1 h2
    cases i with
    | zero =>
      simp only [List.get?] at h1
      injection h1 with h1
      simp [listIndex, h1]
    | succ i =>
      have hy : ¬ y = x := by
        intro hxy
        exact h2 0 (Nat.succ_pos i) (by simp [List.get?, hxy])
      simp only [List.get?] at h1
      have h2' : ∀ j, j < i → ys.get? j ≠ some x := by
        intro j hj
        exact fun hc => h2 (j + 1) (Nat.succ_lt_succ hj) (by simpa [List.get?] using hc)
      simp only [listIndex, if_neg hy, ih i h1 h2']
      rfl

/-- C8: if a page URI occurs in the resource's page-URI list then
`Resource.index` returns its (first) 0-based position and
`get_page_image_id` returns the image-id entry at that position; if the
URI is absent the lookup fails (the `ValueError` that `list.index`
raises — the spec's `PageNotFound` condition). -/
theorem c8_page_index_lookup (r : Resource) (uri : Str) :
    (uri ∉ r.page_uris → r.index uri = .error .valueError) ∧
    (∀ i, r.page_uris.get? i = some uri →
      (∀ j, j < i → r.page_uris.get? j ≠ some uri) →
      r.index uri = .ok i ∧
      ∀ x, r.image_ids.get? i = some x → r.get_page_image_id uri = .ok x) := by
  constructor
  · intro h
    exact listIndex_not_mem _ _ h
  · intro i h1 h2
    have hidx : r.index uri = .ok i := listIndex_first _ _ i h1 h2
    refine ⟨hidx, ?_⟩
    intro x hx
    show Resource.index r uri >>= _ = _
    rw [hidx]
    show (match r.image_ids.get? i with
          | some x => Except.ok x
          | none => Except.error PyErr.indexError) = Except.ok x
    rw [hx]

/-- The spec's three-page example resource. -/
def c8Resource : Resource :=
  ⟨[], ["p1".data, "p2".data, "p3".data], ["a".data, "b".data, "c".data]⟩

/-- Witness for C8 on the `[p1, p2, p3]` example: `index(p3) = 2`, the
page image id of `p3` is the third image-id entry, and a missing URI
fails. -/
theorem c8_witness :
    c8Resource.index "p3".data = .ok 2 ∧
    c8Resource.get_page_image_id "p3".data = .ok "c".data ∧
    c8Resource.index "p9".data = .error .valueError := by
  have h := (c8_page_index_lookup c8Resource "p3".data).2 2 (by decide)
    (by decide)
  exact ⟨h.1, h.2 "c".data (by decide), (c8_page_index_lookup c8Resource "p9".data).1 (by decide)⟩

/-! ## C3: language-tag parsing -/

/-- Characterization of the non-greedy tag scan: it succeeds exactly on
strings that have a `]` before any newline, splitting at the first
`]`. -/
theorem scanLang_some_iff :
    ∀ rest lang after : Str,
      scanLang rest = some (lang, after) ↔
        (rest = lang ++ ']' :: after ∧ ']' ∉ lang ∧ '\n' ∉ lang) := by
  intro rest
  induction rest with
  | nil =>
    intro lang after
    constructor
    · intro h
      exact Option.noConfusion h
    · rintro ⟨heq, -, -⟩
      exact absurd heq (by simp)
  | cons c cs ih =>
    intro lang after
    show (if c = ']' then some ([], cs)
          else if c = '\n' then none
          else (scanLang cs).map (fun p => (c :: p.1, p.2))) = some (lang, after) ↔ _
    split_ifs with hc hn
    · subst hc
      constructor
      · intro h
        injection h with h
        injection h with h1 h2
        subst h1; subst h2
        exact ⟨rfl, by simp, by simp⟩
      · rintro ⟨heq, hnb, -⟩
        cases lang with
        | nil =>
          have hcs : cs = after := by simpa using heq
          rw [hcs]
        | cons l ls =>
          injection heq with h1 _
          exact absurd (h1 ▸ List.mem_cons_self l ls) hnb
    · subst hn
      constructor
      · intro h
        simp at h
      · rintro ⟨heq, hnb, hnn⟩
        cases lang with
        | nil =>
          injection heq with h1 _
          exact absurd h1 (by decide)
        | cons l ls =>
          injection heq with h1 _
          exact absurd (h1 ▸ List.mem_cons_self l ls) hnn
    · constructor
      · intro h
        rw [Option.map_eq_some'] at h
        obtain ⟨⟨p1, p2⟩, hp, hinj⟩ := h
        have hinj1 : c :: p1 = lang := congrArg Prod.fst hinj
        have hinj2 : p2 = after := congrArg Prod.snd hinj
        obtain ⟨heq, hnb, hnn⟩ := (ih p1 p2).mp hp
        subst hinj1
        subst hinj2
        refine ⟨by rw [heq, List.cons_append], ?_, ?_⟩
        · simp only [List.mem_cons]
          rintro (h | h)
          exacts [hc h.symm, hnb h]
        · simp only [List.mem_cons]
          rintro (h | h)
          exacts [hn h.symm, hnn h]
      · rintro ⟨heq, hnb, hnn⟩
        cases lang with
        | nil =>
          injection heq with h1 _
          exact absurd h1 hc
        | cons l ls =>
          injection heq with h1 h2
          have hr := (ih ls after).mpr
            ⟨h2, fun hm => hnb (List.mem_cons_of_mem l hm),
             fun hm => hnn (List.mem_cons_of_mem l hm)⟩
          rw [hr, Option.map_some', h1]

/-- A list all of whose elements satisfy the predicate is fixed by
`takeWhile`. -/
theorem takeWhile_all {α : Type} (p : α → Bool) (l : List α)
    (h : ∀ c ∈ l, p c = true) : l.takeWhile p = l := by
  induction l with
  | nil => rfl
  | cons c cs ih =>
    rw [List.takeWhile_cons, if_pos (h c (List.mem_cons_self c cs))]
    rw [ih (fun x hx => h x (List.mem_cons_of_mem c hx))]

/-- C3 counterexample: on `"[@de]a\nb"` the regex's `.` stops at the
newline, so `format_value` returns the value `"a"`, not the full
remaining text `"a\nb"` the claim promises. -/
theorem c3_counterexample :
    format_value "[@de]a\nb".data = .tagged "de".data "a".data ∧
    FmtVal.tagged "de".data "a".data ≠ .tagged "de".data "a\nb".data := by
  exact ⟨rfl, by decide⟩

/-- C3 (amended): restricted to newline-free inputs the claim holds: a
string starting with a bracketed tag `[@code]` (the code containing no
`]`) yields the language code paired with the remaining text, and a
string with no such leading tag is returned unchanged.  (With a newline
the regex's `.` truncates the value at the first newline, and a tag
whose code would contain a newline is not recognized.) -/
theorem c3_language_tag_parsing :
    (∀ lang text : Str, ']' ∉ lang → '\n' ∉ lang → '\n' ∉ text →
      format_value ('[' :: '@' :: (lang ++ ']' :: text)) = .tagged lang text) ∧
    (∀ s : Str,
      (¬ ∃ lang rest, ']' ∉ lang ∧ '\n' ∉ lang ∧ s = '[' :: '@' :: (lang ++ ']' :: rest)) →
      format_value s = .plain s) := by
  have hunf : ∀ rest : Str, format_value ('[' :: '@' :: rest) =
      (match scanLang rest with
      | some (lang, after) => FmtVal.tagged lang (after.takeWhile (fun c => ¬ c = '\n'))
      | none => FmtVal.plain ('[' :: '@' :: rest)) := by
    intro rest
    simp only [format_value, and_self, if_true]
  constructor
  · intro lang text hnb hnn hnt
    have hscan : scanLang (lang ++ ']' :: text) = some (lang, text) :=
      (scanLang_some_iff _ _ _).mpr ⟨rfl, hnb, hnn⟩
    rw [hunf, hscan]
    show FmtVal.tagged lang (text.takeWhile _) = _
    rw [takeWhile_all _ text (by
      intro c hcm
      have hcn : c ≠ '\n' := fun hceq => hnt (hceq ▸ hcm)
      simp [hcn])]
  · intro s hno
    match s with
    | [] => rfl
    | [a] => rfl
    | a :: b :: rest =>
      by_cases hab : a = '[' ∧ b = '@'
      · obtain ⟨ha, hb⟩ := hab
        subst ha; subst hb
        cases hscan : scanLang rest with
        | none =>
          rw [hunf, hscan]
        | some p =>
          obtain ⟨lang, after⟩ := p
          obtain ⟨heq, hnb, hnn⟩ := (scanLang_some_iff _ _ _).mp hscan
          exact absurd ⟨lang, after, hnb, hnn, by rw [heq]⟩ hno
      · show (if a = '[' ∧ b = '@' then _ else _) = _
        rw [if_neg hab]

/-- Witness for C3 on the spec's examples `"[@de]der Hund"` and
`"plain"`. -/
theorem c3_witness :
    format_value "[@de]der Hund".data = .tagged "de".data "der Hund".data ∧
    format_value "plain".data = .plain "plain".data := by
  constructor
  · exact c3_language_tag_parsing.1 "de".data "der Hund".data (by decide) (by decide) (by decide)
  · refine c3_language_tag_parsing.2 "plain".data ?_
    rintro ⟨lang, rest, -, -, h⟩
    have hp : "plain".data = 'p' :: "lain".data := rfl
    rw [hp] at h
    injection h with h1 _
    exact absurd h1 (by decide)

/-! ## C4: `Resource.metadata` -/

/-- The entry `Resource.metadata` emits for one query mapping entry:
kept exactly when the key does not start with `$` and the formatted
value list is nonempty. -/
def metadataEntry (kv : Str × List JVal) : Option (Str × List FmtVal) :=
  if ¬ dollarKey kv.1 ∧ formattedValues kv.2 ≠ []
  then some (kv.1, formattedValues kv.2) else none

/-- Key lookup ignores a head entry with a different key. -/
theorem query_cons_ne (kv : Str × List JVal) (rest : List (Str × List JVal))
    (pus iids : List Str) (k' : Str) (hne : kv.1 ≠ k') :
    Resource.query ⟨kv :: rest, pus, iids⟩ k' = Resource.query ⟨rest, pus, iids⟩ k' := by
  simp only [Resource.query, List.find?]
  rw [show (decide (kv.1 = k')) = false by simpa using hne]

/-- Python `Resource.metadata`, computed (as the code does) by iterating the
key list and re-looking each key up, agrees with a direct traversal of
the query mapping whenever the keys are distinct — which they are,
`metadata_queries` being a Python dict. -/
theorem metadata_eq_filterMap :
    ∀ (l : List (Str × List JVal)) (pus iids : List Str),
      (l.map Prod.fst).Nodup →
      Resource.metadata ⟨l, pus, iids⟩ = l.filterMap metadataEntry := by
  intro l pus iids hnd
  induction l with
  | nil => rfl
  | cons kv rest ih =>
    obtain ⟨k, vs⟩ := kv
    simp only [List.map_cons, List.nodup_cons] at hnd
    obtain ⟨hk, hnd'⟩ := hnd
    have hquery_head : Resource.query ⟨(k, vs) :: rest, pus, iids⟩ k = vs := by
      simp [Resource.query, List.find?]
    have htail : ∀ k' ∈ (rest.map Prod.fst).filter (fun k2 => !(dollarKey k2)),
        (fun k2 => (k2, formattedValues (Resource.query ⟨(k, vs) :: rest, pus, iids⟩ k2))) k' =
        (fun k2 => (k2, formattedValues (Resource.query ⟨rest, pus, iids⟩ k2))) k' := by
      intro k' hk'
      have hmem : k' ∈ rest.map Prod.fst := List.mem_of_mem_filter hk'
      have hne : k ≠ k' := fun h => hk (h ▸ hmem)
      simp only [query_cons_ne (k, vs) rest pus iids k' hne]
    show ((((k :: rest.map Prod.fst).filter (fun k2 => !(dollarKey k2))).map
        (fun k2 => (k2, formattedValues (Resource.query ⟨(k, vs) :: rest, pus, iids⟩ k2)))).filter
        (fun m => !(m.2.isEmpty))) = _
    by_cases hdol : dollarKey k
    · have hfilter : (k :: rest.map Prod.fst).filter (fun k2 => !(dollarKey k2)) =
          (rest.map Prod.fst).filter (fun k2 => !(dollarKey k2)) := by
        simp [List.filter_cons, hdol]
      rw [hfilter, List.map_congr_left htail]
      have hentry : metadataEntry (k, vs) = none := by
        simp [metadataEntry, hdol]
      rw [List.filterMap_cons, hentry]
      exact ih hnd'
    · have hfilter : (k :: rest.map Prod.fst).filter (fun k2 => !(dollarKey k2)) =
          k :: (rest.map Prod.fst).filter (fun k2 => !(dollarKey k2)) := by
        simp [List.filter_cons, hdol]
      rw [hfilter, List.map_cons, List.map_congr_left htail, hquery_head]
      rw [List.filter_cons, List.filterMap_cons]
      by_cases hemp : formattedValues vs = []
      · have h1 : (!(k, formattedValues vs).2.isEmpty) = false := by
          simp [hemp]
        have h2 : metadataEntry (k, vs) = none := by
          simp [metadataEntry, hemp]
        rw [h1, h2]
        simp only [if_neg Bool.false_ne_true]
        exact ih hnd'
      · have h1 : (!(k, formattedValues vs).2.isEmpty) = true := by
          simpa using hemp
        have h2 : metadataEntry (k, vs) = some (k, formattedValues vs) := by
          simp [metadataEntry, hdol, hemp]
        rw [h1, h2, if_pos rfl]
        show (k, formattedValues vs) :: Resource.metadata ⟨rest, pus, iids⟩ =
          (k, formattedValues vs) :: rest.filterMap metadataEntry
        rw [ih hnd']

/-- The spec's descriptive-metadata example document: a `$`-prefixed
structural key, `Title` and `Creator` entries, and a key whose only
result is null. -/
def c4Resource : Resource :=
  ⟨[("$uri".data, [.str "u".data]),
    ("Title".data, [.str "Foobar".data]),
    ("Creator".data, [.str "John Doe".data, .str "[@de]Johannes Tier".data]),
    ("Empty".data, [.null])], [], []⟩

/-- C4: `Resource.metadata` yields, for each query key not starting
with `$`, in key order, an entry labelled by the key whose value is the
list of all non-null query results passed through language-tag
parsing, with empty-valued keys omitted; on the example document this
is exactly the `Title` and `Creator` entries (the `de`-tagged value
parsed), the null-only key omitted. -/
theorem c4_resource_metadata :
    (∀ r : Resource, (r.queryResults.map Prod.fst).Nodup →
      r.metadata = r.queryResults.filterMap metadataEntry) ∧
    Resource.metadata c4Resource =
      [("Title".data, [.plain "Foobar".data]),
       ("Creator".data, [.plain "John Doe".data, .tagged "de".data "Johannes Tier".data])] := by
  constructor
  · intro r hnd
    obtain ⟨l, pus, iids⟩ := r
    exact metadata_eq_filterMap l pus iids hnd
  · rfl

/-- Witness for C4: the example document has distinct keys, and its
metadata equals the direct traversal. -/
theorem c4_witness :
    (c4Resource.queryResults.map Prod.fst).Nodup ∧
    c4Resource.metadata = c4Resource.queryResults.filterMap metadataEntry :=
  ⟨by decide, c4_resource_metadata.1 c4Resource (by decide)⟩

/-! ## C5: search-hit scoping -/

/-- Binding a successful `Except` computation applies the continuation. -/
theorem exc_bind_ok {α β : Type} (a : α) (f : α → Except PyErr β) :
    (Except.ok a >>= f) = f a := rfl

/-- When every hit's page-index parameter parses, the index filter of
`get_text_matches` is the plain list filter on that parameter. -/
theorem filterByN_filter (n : ℤ) :
    ∀ hits : List TaggedText, (∀ h ∈ hits, ∃ m, nValue h = .ok m) →
      filterByN n hits = .ok (hits.filter (fun h => nValue h = Except.ok n)) := by
  intro hits hall
  induction hits with
  | nil => rfl
  | cons h hs ih =>
    obtain ⟨m, hm⟩ := hall h (List.mem_cons_self h hs)
    have ih' := ih (fun x hx => hall x (List.mem_cons_of_mem h hx))
    show (nValue h >>= fun m =>
      filterByN n hs >>= fun rest => Except.ok (if m = n then h :: rest else rest)) = _
    rw [hm, exc_bind_ok, ih', exc_bind_ok, List.filter_cons]
    by_cases hmn : m = n
    · subst hmn
      rw [if_pos rfl, if_pos (by simp [hm])]
    · rw [if_neg hmn, if_neg (by simp [hm, hmn])]

/-- C5: each odd-indexed match-tag-separated highlight segment is
parsed as `text|query-string` into a (text, params) hit, and a given
page index keeps exactly the hits whose parsed numeric `n` parameter
equals it; on the spec's example only the `n=1` hit survives filtering
by page index 1. -/
theorem c5_search_hit_scoping :
    (∀ (snippets : List Str) (matchTag : Str) (hits : List TaggedText) (n : ℤ),
      collectHits matchTag snippets = .ok hits →
      (∀ h ∈ hits, ∃ m, nValue h = .ok m) →
      get_text_matches snippets matchTag (some n) =
        .ok (hits.filter (fun h => nValue h = Except.ok n))) ∧
    get_text_matches ["x##foo|n=1&xywh=1,2,3,4##y##bar|n=2&xywh=5,6,7,8##z".data]
        "##".data (some 1) =
      .ok [⟨"foo".data, [("n".data, "1".data), ("xywh".data, "1,2,3,4".data)]⟩] ∧
    TaggedText.parse "foo|n=1&xywh=1,2,3,4".data =
      .ok ⟨"foo".data, [("n".data, "1".data), ("xywh".data, "1,2,3,4".data)]⟩ := by
  refine ⟨?_, by decide, by decide⟩
  intro snippets matchTag hits n hok hall
  show (collectHits matchTag snippets >>= fun hits =>
    match some n with
    | none => Except.ok hits
    | some n => filterByN n hits) = _
  rw [hok, exc_bind_ok]
  exact filterByN_filter n hits hall

/-- Witness for C5: the example snippet's hits all carry a numeric `n`,
and filtering by page index 1 keeps exactly the first hit. -/
theorem c5_witness :
    collectHits "##".data ["x##foo|n=1&xywh=1,2,3,4##y##bar|n=2&xywh=5,6,7,8##z".data] =
      .ok [⟨"foo".data, [("n".data, "1".data), ("xywh".data, "1,2,3,4".data)]⟩,
           ⟨"bar".data, [("n".data, "2".data), ("xywh".data, "5,6,7,8".data)]⟩] ∧
    get_text_matches ["x##foo|n=1&xywh=1,2,3,4##y##bar|n=2&xywh=5,6,7,8##z".data]
        "##".data (some 1) =
      .ok ([⟨"foo".data, [("n".data, "1".data), ("xywh".data, "1,2,3,4".data)]⟩,
            ⟨"bar".data, [("n".data, "2".data), ("xywh".data, "5,6,7,8".data)]⟩].filter
        (fun h => nValue h = Except.ok 1)) := by
  refine ⟨by decide, ?_⟩
  exact c5_search_hit_scoping.1 _ _ _ 1 (by decide)
    (by
      intro h hm
      simp only [List.mem_cons, List.not_mem_nil, or_false] at hm
      rcases hm with h1 | h1 <;> subst h1
      · exact ⟨1, by decide⟩
      · exact ⟨2, by decide⟩)

/-! ## C10: canvas naming

`Canvas.search_text` does `int(self.name)` on the name built as
`str(index)`, so the decimal round trip is established first. -/

/-- Every character `str(n)` emits is one of the ten digit
characters. -/
theorem natToStrGo_chars :
    ∀ f n : ℕ, ∀ c ∈ natToStrGo f n, ∃ d, d < 10 ∧ c = digitCh d := by
  intro f
  induction f with
  | zero => intro n c hc; exact absurd hc (by simp [natToStrGo])
  | succ f ih =>
    intro n c hc
    by_cases h0 : n = 0
    · rw [natToStrGo, if_pos h0] at hc
      exact absurd hc (by simp)
    · rw [natToStrGo, if_neg h0, List.mem_append] at hc
      rcases hc with hc | hc
      · exact ih (n / 10) c hc
      · have : c = digitCh (n % 10) := by simpa using hc
        exact ⟨n % 10, Nat.mod_lt _ (by norm_num), this⟩

/-- Digit characters are digits for `parseDigits`. -/
theorem digitCh_isDigit (d : ℕ) (hd : d < 10) : isDigitCh (digitCh d) = true := by
  interval_cases d <;> decide

/-- Reading a digit character back gives the digit. -/
theorem digitCh_val (d : ℕ) (hd : d < 10) : (digitCh d).toNat - 48 = d := by
  interval_cases d <;> decide

/-- Digit characters are not whitespace. -/
theorem digitCh_not_space (d : ℕ) (hd : d < 10) : isPySpace (digitCh d) = false := by
  interval_cases d <;> decide

/-- Digit characters are not sign characters. -/
theorem digitCh_not_sign (d : ℕ) (hd : d < 10) : digitCh d ≠ '-' ∧ digitCh d ≠ '+' := by
  interval_cases d <;> decide

/-- Zero prints no digits, whatever the fuel. -/
theorem natToStrGo_zero_fuel : ∀ f : ℕ, natToStrGo f 0 = [] := by
  intro f
  cases f with
  | zero => rfl
  | succ f => rw [natToStrGo, if_pos rfl]

/-- With enough fuel `natToStrGo` emits a nonempty output whose digits fold
back to the number. -/
theorem natToStrGo_spec :
    ∀ f n : ℕ, 0 < n → n ≤ f →
      natToStrGo f n ≠ [] ∧
      (natToStrGo f n).foldl (fun a c => 10 * a + (c.toNat - 48)) 0 = n := by
  intro f
  induction f with
  | zero => intro n h1 h2; omega
  | succ f ih =>
    intro n h1 h2
    have h0 : ¬ n = 0 := Nat.pos_iff_ne_zero.mp h1
    rw [natToStrGo, if_neg h0]
    by_cases hsmall : n / 10 = 0
    · rw [hsmall, natToStrGo_zero_fuel]
      refine ⟨by simp, ?_⟩
      have hlt : n % 10 = n := Nat.mod_eq_of_lt (by omega)
      simp only [List.nil_append, List.foldl_cons, List.foldl_nil, Nat.mul_zero, Nat.zero_add]
      rw [hlt, digitCh_val n (by omega)]
    · have hdivpos : 0 < n / 10 := Nat.pos_of_ne_zero hsmall
      have hdivle : n / 10 ≤ f := by
        have := Nat.div_lt_self h1 (by norm_num : 1 < 10)
        omega
      obtain ⟨hne, hfold⟩ := ih (n / 10) hdivpos hdivle
      refine ⟨by simp, ?_⟩
      rw [List.foldl_append, hfold]
      simp only [List.foldl_cons, List.foldl_nil]
      rw [digitCh_val (n % 10) (Nat.mod_lt _ (by norm_num))]
      omega

/-- The digit parser inverts `str` on naturals. -/
theorem parseDigits_natToStr (n : ℕ) : parseDigits (natToStr n) = some n := by
  by_cases h0 : n = 0
  · subst h0
    decide
  · have hpos : 0 < n := Nat.pos_of_ne_zero h0
    obtain ⟨hne, hfold⟩ := natToStrGo_spec n n hpos le_rfl
    have hall : (natToStrGo n n).all isDigitCh = true := by
      rw [List.all_eq_true]
      intro c hc
      obtain ⟨d, hd, rfl⟩ := natToStrGo_chars n n c hc
      exact digitCh_isDigit d hd
    unfold natToStr
    rw [if_neg h0]
    unfold parseDigits
    rw [if_pos ⟨hne, hall⟩, hfold]

/-- Dropping leading whitespace does nothing to an all-digit string. -/
theorem dropWhile_no_space (l : Str) (h : ∀ c ∈ l, isPySpace c = false) :
    l.dropWhile isPySpace = l := by
  cases l with
  | nil => rfl
  | cons c cs =>
    rw [List.dropWhile_cons, h c (List.mem_cons_self c cs)]
    simp

/-- Python `int` inverts `str` on naturals: `int(str(n)) = n`. -/
theorem pyInt_natToStr (n : ℕ) : pyInt (natToStr n) = some (n : ℤ) := by
  have hchars : ∀ c ∈ natToStr n, ∃ d, d < 10 ∧ c = digitCh d := by
    intro c hc
    by_cases h0 : n = 0
    · subst h0
      have : c = '0' := by simpa [natToStr] using hc
      exact ⟨0, by norm_num, this⟩
    · rw [natToStr, if_neg h0] at hc
      exact natToStrGo_chars n n c hc
  have hnospace : ∀ c ∈ natToStr n, isPySpace c = false := by
    intro c hc
    obtain ⟨d, hd, rfl⟩ := hchars c hc
    exact digitCh_not_space d hd
  have hstrip : pyStrip (natToStr n) = natToStr n := by
    unfold pyStrip
    rw [dropWhile_no_space _ hnospace,
      dropWhile_no_space _ (fun c hc => hnospace c (List.mem_reverse.mp hc)),
      List.reverse_reverse]
  have hne : natToStr n ≠ [] := by
    by_cases h0 : n = 0
    · subst h0; decide
    · rw [natToStr, if_neg h0]
      exact (natToStrGo_spec n n (Nat.pos_of_ne_zero h0) le_rfl).1
  obtain ⟨c, cs, hcons⟩ := List.exists_cons_of_ne_nil hne
  obtain ⟨d, hd, hcd⟩ := hchars c (by rw [hcons]; exact List.mem_cons_self c cs)
  have hsigns := digitCh_not_sign d hd
  unfold pyInt
  rw [hstrip, hcons]
  rw [if_neg (by simp [hcd, hsigns.1]), if_neg (by simp [hcd, hsigns.2])]
  rw [← hcons, parseDigits_natToStr]
  rfl

/-- Python `list.index` on a duplicate-free list inverts positional access. -/
theorem listIndex_nodup (l : List Str) (hnd : l.Nodup) :
    ∀ (i : ℕ) (x : Str), l.get? i = some x → listIndex l x = .ok i := by
  induction l with
  | nil => intro i x h; simp at h
  | cons y ys ih =>
    intro i x h
    obtain ⟨hy, hnd'⟩ := List.nodup_cons.mp hnd
    cases i with
    | zero =>
      have hyx : y = x := by simpa using h
      simp [listIndex, hyx]
    | succ i =>
      have h' : ys.get? i = some x := by simpa using h
      have hmem : x ∈ ys := List.get?_mem h'
      have hne : ¬ y = x := fun hc => hy (hc ▸ hmem)
      rw [listIndex, if_neg hne, ih hnd' i x h']
      rfl

/-- The canvas-construction loop: with duplicate-free page URIs, the
canvas built for position `idx + j` is named `str(idx + j)`, shows page
`us[j]`, and carries the image id at position `idx + j`. -/
theorem mkCanvasesGo_spec (r : Resource) (hnd : r.page_uris.Nodup) :
    ∀ (us : List Str) (idx : ℕ) (cs : List CanvasM),
      (∀ j, us.get? j = r.page_uris.get? (idx + j)) →
      mkCanvasesGo r idx us = .ok cs →
      cs.length = us.length ∧
      ∀ (j : ℕ) (c : CanvasM), cs.get? j = some c →
        c.name = natToStr (idx + j) ∧
        us.get? j = some c.page_uri ∧
        r.image_ids.get? (idx + j) = some c.image_id := by
  intro us
  induction us with
  | nil =>
    intro idx cs hcorr hok
    have hcs : cs = [] := by
      have h : (Except.ok [] : Except PyErr (List CanvasM)) = .ok cs := hok
      injection h with h
      exact h.symm
    subst hcs
    exact ⟨rfl, by intro j c h; simp at h⟩
  | cons u us ih =>
    intro idx cs hcorr hok
    have hpu : r.page_uris.get? idx = some u := by
      have h := hcorr 0
      simp only [List.get?, Nat.add_zero] at h
      exact h.symm
    cases himg : r.get_page_image_id u with
    | error e =>
      rw [mkCanvasesGo, himg] at hok
      exact absurd hok (by simp [Bind.bind, Except.bind])
    | ok img =>
      cases hrest : mkCanvasesGo r (idx + 1) us with
      | error e =>
        rw [mkCanvasesGo, himg, hrest] at hok
        exact absurd hok (by simp [Bind.bind, Except.bind])
      | ok rest =>
        have hcs : cs = ⟨natToStr idx, u, img⟩ :: rest := by
          rw [mkCanvasesGo, himg, hrest] at hok
          have : (Except.ok (⟨natToStr idx, u, img⟩ :: rest) :
              Except PyErr (List CanvasM)) = .ok cs := hok
          injection this with h
          exact h.symm
        subst hcs
        have hcorr' : ∀ j, us.get? j = r.page_uris.get? (idx + 1 + j) := by
          intro j
          have h := hcorr (j + 1)
          simpa [Nat.add_assoc, Nat.add_comm 1 j] using h
        obtain ⟨hlen, hprops⟩ := ih (idx + 1) rest hcorr' hrest
        refine ⟨by simp [hlen], ?_⟩
        intro j c hc
        cases j with
        | zero =>
          have hcc : c = ⟨natToStr idx, u, img⟩ := by simpa using hc.symm
          subst hcc
          refine ⟨by rw [Nat.add_zero], by simp, ?_⟩
          have hli : listIndex r.page_uris u = .ok idx := listIndex_nodup _ hnd idx u hpu
          have himg' := himg
          rw [Resource.get_page_image_id] at himg'
          rw [show Resource.index r u = listIndex r.page_uris u from rfl, hli, exc_bind_ok] at himg'
          cases hii : r.image_ids.get? idx with
          | none =>
            rw [hii] at himg'
            exact absurd himg' (by simp)
          | some x =>
            rw [hii] at himg'
            have : x = img := by
              have := himg'
              injection this
            rw [Nat.add_zero, hii, this]
        | succ j =>
          have hc' : rest.get? j = some c := by simpa using hc
          obtain ⟨hname, hpage, himgid⟩ := hprops j c hc'
          refine ⟨?_, by simpa using hpage, ?_⟩
          · rw [hname]
            congr 1
            omega
          · rw [show idx + (j + 1) = idx + 1 + j by omega]
            exact himgid

/-- A resource whose page-URI list repeats a URI, with distinct image
ids. -/
def c10DupResource : Resource :=
  ⟨[], ["p".data, "p".data], ["a".data, "b".data]⟩

/-- C10 counterexample: with a duplicated page URI, the canvas at
position 1 takes its image id through `list.index` (first occurrence),
so it gets the image-id entry at position 0, not the entry at its own
position 1. -/
theorem c10_counterexample :
    Sequence.canvases c10DupResource =
      .ok [⟨"0".data, "p".data, "a".data⟩, ⟨"1".data, "p".data, "a".data⟩] ∧
    c10DupResource.image_ids.get? 1 = some "b".data ∧
    ("a".data : Str) ≠ "b".data := by
  refine ⟨by decide, by decide, by decide⟩

/-- C10 (amended): for a resource whose page URIs are pairwise
distinct, when canvas construction succeeds there is exactly one canvas
per page URI in page order, the canvas at position `i` is named
`str(i)` with no zero-padding, its image id is the image-id entry at
position `i`, and its text search is scoped to page index `i` (the
integer value of its name). -/
theorem c10_canvas_naming (r : Resource) (cs : List CanvasM)
    (hnd : r.page_uris.Nodup) (hok : Sequence.canvases r = .ok cs) :
    cs.length = r.page_uris.length ∧
    ∀ (i : ℕ) (c : CanvasM), cs.get? i = some c →
      c.name = natToStr i ∧
      r.page_uris.get? i = some c.page_uri ∧
      r.image_ids.get? i = some c.image_id ∧
      Canvas.search_page_index c = .ok (i : ℤ) := by
  obtain ⟨hlen, hprops⟩ := mkCanvasesGo_spec r hnd r.page_uris 0 cs
    (fun j => by rw [Nat.zero_add]) hok
  refine ⟨hlen, ?_⟩
  intro i c hc
  obtain ⟨hname, hpage, himg⟩ := hprops i c hc
  rw [Nat.zero_add] at hname himg
  refine ⟨hname, hpage, himg, ?_⟩
  rw [Canvas.search_page_index, hname, pyInt_natToStr]

/-- The three-page resource used to witness C10. -/
def c10Resource : Resource :=
  ⟨[], ["q1".data, "q2".data, "q3".data], ["x".data, "y".data, "z".data]⟩

/-- Witness for C10 on a three-page resource: canvas 2 is named `"2"`,
shows the third page with the third image id, and searches page 2. -/
theorem c10_witness :
    c10Resource.page_uris.Nodup ∧
    Sequence.canvases c10Resource =
      .ok [⟨"0".data, "q1".data, "x".data⟩, ⟨"1".data, "q2".data, "y".data⟩,
           ⟨"2".data, "q3".data, "z".data⟩] ∧
    (⟨"2".data, "q3".data, "z".data⟩ : CanvasM).name = natToStr 2 ∧
    Canvas.search_page_index ⟨"2".data, "q3".data, "z".data⟩ = .ok (2 : ℤ) := by
  refine ⟨by decide, by decide, ?_, ?_⟩
  · have h := (c10_canvas_naming c10Resource
      [⟨"0".data, "q1".data, "x".data⟩, ⟨"1".data, "q2".data, "y".data⟩,
       ⟨"2".data, "q3".data, "z".data⟩] (by decide) (by decide)).2 2
      ⟨"2".data, "q3".data, "z".data⟩ (by decide)
    exact h.1
  · have h := (c10_canvas_naming c10Resource
      [⟨"0".data, "q1".data, "x".data⟩, ⟨"1".data, "q2".data, "y".data⟩,
       ⟨"2".data, "q3".data, "z".data⟩] (by decide) (by decide)).2 2
      ⟨"2".data, "q3".data, "z".data⟩ (by decide)
    exact h.2.2.2

/-! ## C1: identifier round trip -/

/-- Python `str.replace` leaves a string without an occurrence of the pattern
unchanged. -/
theorem replaceGo_no_occ (pat rep : Str) :
    ∀ (f : ℕ) (s : Str), s.length ≤ f → ¬ pat <:+: s → replaceGo pat rep f s = s := by
  intro f
  induction f with
  | zero =>
    intro s hlen _
    rfl
  | succ f ih =>
    intro s hlen hocc
    cases s with
    | nil => rfl
    | cons c cs =>
      have hpre : ¬ pat.isPrefixOf (c :: cs) := by
        intro hp
        exact hocc ( (List.isPrefixOf_iff_prefix.mp hp).isInfix)
      rw [replaceGo, if_neg hpre]
      rw [ih cs (by simpa using Nat.le_of_succ_le_succ (by simpa using hlen))
        (fun h => hocc (List.infix_cons h))]

/-- Python `str.replace` on a string that starts with the (nonempty) pattern
and has no later occurrence replaces exactly that head occurrence. -/
theorem replaceGo_head (p : Char) (ps rep t : Str) :
    ∀ f : ℕ, ((p :: ps) ++ t).length ≤ f → ¬ (p :: ps) <:+: t →
      replaceGo (p :: ps) rep f ((p :: ps) ++ t) = rep ++ t := by
  intro f hlen hocc
  cases f with
  | zero => simp at hlen
  | succ f =>
    have hpre : (p :: ps).isPrefixOf ((p :: ps) ++ t) :=
      List.isPrefixOf_iff_prefix.mpr (List.prefix_append _ _)
    show (if (p :: ps).isPrefixOf (p :: (ps ++ t)) then
        rep ++ replaceGo (p :: ps) rep f ((p :: (ps ++ t)).drop (p :: ps).length)
      else _) = rep ++ t
    rw [if_pos (by exact hpre)]
    have hdrop : (p :: (ps ++ t)).drop (p :: ps).length = t := by
      exact List.drop_left (p :: ps) t
    rw [hdrop, replaceGo_no_occ (p :: ps) rep f t (by simp at hlen; omega) hocc]

/-- Replacement of a single-character pattern by a single character is
a character map. -/
theorem replaceGo_single (u v : Char) :
    ∀ (f : ℕ) (s : Str), s.length ≤ f →
      replaceGo [u] [v] f s = s.map (fun c => if c = u then v else c) := by
  intro f
  induction f with
  | zero =>
    intro s hlen
    have : s = [] := List.length_eq_zero.mp (Nat.le_zero.mp hlen)
    subst this
    rfl
  | succ f ih =>
    intro s hlen
    cases s with
    | nil => rfl
    | cons c cs =>
      have hlen' : cs.length ≤ f := by simp at hlen; omega
      by_cases hc : c = u
      · subst hc
        have hpre : [c].isPrefixOf (c :: cs) := by simp [List.isPrefixOf]
        rw [replaceGo, if_pos hpre]
        show [v] ++ replaceGo [c] [v] f cs = _
        rw [ih cs hlen']
        simp
      · have hpre : ¬ [u].isPrefixOf (c :: cs) := by
          simp [List.isPrefixOf, hc]
          intro h
          exact absurd h.symm hc
        rw [replaceGo, if_neg hpre, ih cs hlen']
        simp [hc]

/-- For a nonempty pattern `pyReplace` is `replaceGo` at full fuel. -/
theorem pyReplace_ne (pat rep s : Str) (h : pat ≠ []) :
    pyReplace pat rep s = replaceGo pat rep s.length s := by
  cases pat with
  | nil => exact absurd rfl h
  | cons p ps => rfl

/-- Python `s.replace(pat, rep)` on `pat ++ t` with no further occurrence. -/
theorem pyReplace_head (p : Char) (ps rep t : Str) (hocc : ¬ (p :: ps) <:+: t) :
    pyReplace (p :: ps) rep ((p :: ps) ++ t) = rep ++ t := by
  rw [pyReplace_ne _ _ _ (by simp)]
  exact replaceGo_head p ps rep t _ le_rfl hocc

/-- Python `s.replace(u, v)` for single characters is a character map. -/
theorem pyReplace_single (u v : Char) (s : Str) :
    pyReplace [u] [v] s = s.map (fun c => if c = u then v else c) := by
  rw [pyReplace_ne _ _ _ (by simp)]
  exact replaceGo_single u v _ s le_rfl

/-- Substituting a character that does not occur changes nothing. -/
theorem map_subst_self (x y : Char) (l : Str) (hx : x ∉ l) :
    l.map (fun c => if c = x then y else c) = l := by
  induction l with
  | nil => rfl
  | cons c cs ih =>
    have hcx : ¬ c = x := fun h => hx (h ▸ List.mem_cons_self c cs)
    simp only [List.map_cons, if_neg hcx]
    rw [ih (fun h => hx (List.mem_cons_of_mem c h))]

/-- Substituting `x → y` and then `y → x` restores a string that did
not contain `y`. -/
theorem map_subst_roundtrip (x y : Char) (l : Str) (hy : y ∉ l) :
    (l.map (fun c => if c = x then y else c)).map (fun c => if c = y then x else c) = l := by
  induction l with
  | nil => rfl
  | cons c cs ih =>
    have hcy : c ≠ y := fun h => hy (h ▸ List.mem_cons_self c cs)
    have ih' := ih (fun h => hy (List.mem_cons_of_mem c h))
    by_cases hcx : c = x
    · subst hcx
      simp only [List.map_cons, if_pos rfl, ih']
      simp
    · simp only [List.map_cons, if_neg hcx, if_neg hcy, ih']

/-- C1 counterexample: with endpoint `E`, prefix `P`, and the default
path separator `:`, the address `E/a:b` starts with the endpoint, but
translating it to an identifier and back yields `E/a/b`: the `:` in
the original path is indistinguishable from an encoded `/`. -/
theorem c1_counterexample :
    ("E".data).isPrefixOf "E/a:b".data = true ∧
    (get_iiif_id ⟨"E".data, "P".data, ":".data⟩ "E/a:b".data >>=
      get_resource_uri ⟨"E".data, "P".data, ":".data⟩) ≠ .ok "E/a:b".data ∧
    (get_iiif_id ⟨"E".data, "P".data, ":".data⟩ "E/a:b".data >>=
      get_resource_uri ⟨"E".data, "P".data, ":".data⟩) = .ok "E/a/b".data := by
  refine ⟨by decide, by decide, by decide⟩

/-- C1 (amended): the round trip holds on the identifiers and addresses
the translation is meant for: a single-character path separator `sc`
(distinct from `/`), a prefix containing no `/`, an address whose local
path contains neither `sc` nor a further occurrence of `endpoint + '/'`,
and an identifier whose local part contains no `/` and whose decoded
path does not contain `endpoint + '/'`. -/
theorem c1_identifier_round_trip (ep pfx : Str) (sc : Char) (p l : Str)
    (hpfx_slash : '/' ∉ pfx)
    (hp_sc : sc ∉ p)
    (hp_occ : ¬ (ep ++ ['/']) <:+: p)
    (hl_slash : '/' ∉ l)
    (hl_occ : ¬ (ep ++ ['/']) <:+: (l.map (fun c => if c = sc then '/' else c))) :
    (get_iiif_id ⟨ep, pfx, [sc]⟩ (ep ++ '/' :: p) >>=
      get_resource_uri ⟨ep, pfx, [sc]⟩) = .ok (ep ++ '/' :: p) ∧
    (get_resource_uri ⟨ep, pfx, [sc]⟩ (pfx ++ l) >>=
      get_iiif_id ⟨ep, pfx, [sc]⟩) = .ok (pfx ++ l) := by
  constructor
  · -- address → identifier → address
    have hpre : ep.isPrefixOf (ep ++ '/' :: p) :=
      List.isPrefixOf_iff_prefix.mpr (List.prefix_append _ _)
    have hiiif : get_iiif_id ⟨ep, pfx, [sc]⟩ (ep ++ '/' :: p) =
        .ok (pfx ++ p.map (fun c => if c = '/' then sc else c)) := by
      rw [get_iiif_id, if_pos hpre]
      have hsplit : ep ++ '/' :: p = (ep ++ ['/']) ++ p := by
        rw [List.append_cons]
      rw [hsplit]
      have hshape : ∃ q qs, ep ++ ['/'] = q :: qs := by
        cases ep with
        | nil => exact ⟨'/', [], rfl⟩
        | cons e es => exact ⟨e, es ++ ['/'], by simp⟩
      obtain ⟨q, qs, hqs⟩ := hshape
      rw [hqs, pyReplace_head q qs pfx p (hqs ▸ hp_occ)]
      rw [pyReplace_single, List.map_append, map_subst_self '/' sc pfx hpfx_slash]
    rw [hiiif, exc_bind_ok]
    have hpre2 : pfx.isPrefixOf (pfx ++ p.map (fun c => if c = '/' then sc else c)) :=
      List.isPrefixOf_iff_prefix.mpr (List.prefix_append _ _)
    rw [get_resource_uri]
    show (if pfx.isPrefixOf _ then _ else _) = _
    rw [if_pos hpre2]
    rw [show ((pfx ++ p.map (fun c => if c = '/' then sc else c)).drop pfx.length) =
        p.map (fun c => if c = '/' then sc else c) from List.drop_left _ _]
    show Except.ok (ep ++ '/' :: pyReplace [sc] ['/']
        (p.map (fun c => if c = '/' then sc else c))) = Except.ok (ep ++ '/' :: p)
    rw [pyReplace_single, map_subst_roundtrip '/' sc p hp_sc]
  · -- identifier → address → identifier
    have hpre : pfx.isPrefixOf (pfx ++ l) :=
      List.isPrefixOf_iff_prefix.mpr (List.prefix_append _ _)
    have huri : get_resource_uri ⟨ep, pfx, [sc]⟩ (pfx ++ l) =
        .ok (ep ++ '/' :: l.map (fun c => if c = sc then '/' else c)) := by
      rw [get_resource_uri]
      show (if pfx.isPrefixOf _ then _ else _) = _
      rw [if_pos hpre]
      rw [show ((pfx ++ l).drop pfx.length) = l from List.drop_left _ _]
      show Except.ok (ep ++ '/' :: pyReplace [sc] ['/'] l) =
        Except.ok (ep ++ '/' :: l.map (fun c => if c = sc then '/' else c))
      rw [pyReplace_single]
    rw [huri, exc_bind_ok]
    have hpre2 : ep.isPrefixOf (ep ++ '/' :: l.map (fun c => if c = sc then '/' else c)) :=
      List.isPrefixOf_iff_prefix.mpr (List.prefix_append _ _)
    rw [get_iiif_id, if_pos hpre2]
    have hsplit : ep ++ '/' :: l.map (fun c => if c = sc then '/' else c) =
        (ep ++ ['/']) ++ l.map (fun c => if c = sc then '/' else c) := by
      rw [List.append_cons]
    rw [hsplit]
    have hshape : ∃ q qs, ep ++ ['/'] = q :: qs := by
      cases ep with
      | nil => exact ⟨'/', [], rfl⟩
      | cons e es => exact ⟨e, es ++ ['/'], by simp⟩
    obtain ⟨q, qs, hqs⟩ := hshape
    rw [hqs, pyReplace_head q qs pfx _ (hqs ▸ hl_occ)]
    rw [pyReplace_single, List.map_append, map_subst_self '/' sc pfx hpfx_slash]
    rw [map_subst_roundtrip sc '/' l hl_slash]

/-- Witness for C1 with endpoint `E`, prefix `P`, separator `:`,
address `E/a/b`, and identifier `P` + `a:b`. -/
theorem c1_witness :
    ('/' ∉ "P".data ∧ (':' : Char) ∉ "a/b".data ∧
      ¬ ("E".data ++ ['/']) <:+: "a/b".data ∧ '/' ∉ "a:b".data ∧
      ¬ ("E".data ++ ['/']) <:+:
        (("a:b".data).map (fun c => if c = ':' then '/' else c))) ∧
    (get_iiif_id ⟨"E".data, "P".data, [':']⟩ ("E".data ++ '/' :: "a/b".data) >>=
      get_resource_uri ⟨"E".data, "P".data, [':']⟩) = .ok ("E".data ++ '/' :: "a/b".data) ∧
    (get_resource_uri ⟨"E".data, "P".data, [':']⟩ ("P".data ++ "a:b".data) >>=
      get_iiif_id ⟨"E".data, "P".data, [':']⟩) = .ok ("P".data ++ "a:b".data) := by
  have h := c1_identifier_round_trip "E".data "P".data ':' "a/b".data "a:b".data
    (by decide) (by decide) (by decide) (by decide) (by decide)
  exact ⟨⟨by decide, by decide, by decide, by decide, by decide⟩, h.1, h.2⟩

end Papaya










